import Mathlib

/-!
Verification of the chatbot core logic of `Frontend/src/components/chatbot.tsx`:
email harvesting (`collectEmails` / `founderEmails`), identity resolution
(`companyName` / `productName` / `displayName` / `combinedName`), mail-link
composition (`gmailParams` / `gmailLink`), the reply-to-blocks formatter
(`renderMessageContent`), and the conversation send/start operations.

JavaScript values are embedded as the inductive `JsValue`; arrays and objects
are cons-encoded so that every function is plainly structurally recursive.
`JSON.parse` is an external platform function and is threaded through as an
explicit `parse` parameter.  Machine strings are Lean `String`s, and every
string operation the source uses (`trim`, `toLowerCase`, `split`, `slice`,
regex matching, URL form encoding) is reimplemented below on `List Char`
so that the embedding is fully executable.
-/

namespace Chatbot

/-! ## Character classes of the email regex

`EMAIL_REGEX = /[A-Z0-9._%+-]+@[A-Z0-9.-]+\.[A-Z]{2,}/gi` (chatbot.tsx line 12).
With the `i` flag the letter ranges cover both cases. -/

/-- Local-part character class `[A-Z0-9._%+-]` (case-insensitive). -/
def isL (c : Char) : Bool :=
  c.isAlphanum || c == '.' || c == '_' || c == '%' || c == '+' || c == '-'

/-- Domain character class `[A-Z0-9.-]` (case-insensitive). -/
def isD (c : Char) : Bool :=
  c.isAlphanum || c == '.' || c == '-'

/-- TLD character class `[A-Z]` (case-insensitive). -/
def isT (c : Char) : Bool :=
  c.isAlpha

/-- Does index `i` of `dom` hold a dot usable as the `\.` of the regex?
It must leave a non-empty `[A-Z0-9.-]+` before it (`1 ≤ i`) and at least two
letters right after it (`T{2,}`). -/
def validDot (dom : List Char) (i : Nat) : Bool :=
  decide (1 ≤ i) && (dom.get? i == some '.') &&
    decide (2 ≤ ((dom.drop (i + 1)).takeWhile isT).length)

/-- The dot the backtracking `[A-Z0-9.-]+` engine settles on: the largest
valid dot index inside the maximal domain-character run (JS regex `+` is
greedy and backtracks from the right). -/
def bestDot (dom : List Char) : Option Nat :=
  ((List.range dom.length).filter (validDot dom)).getLast?

/-- Match the email regex at the start of `s`.  Returns the matched
characters and the remainder of the input after the match.  Mirrors the JS
backtracking semantics: the local run `[A-Z0-9._%+-]+` is maximal (it cannot
backtrack because `@` is outside the class), the domain run `[A-Z0-9.-]+`
backtracks to the last dot that leaves a `T{2,}` tail, and `[A-Z]{2,}` is
greedy. -/
def matchAt (s : List Char) : Option (List Char × List Char) :=
  if (s.takeWhile isL).isEmpty then none
  else
    match s.dropWhile isL with
    | '@' :: r2 =>
      match bestDot (r2.takeWhile isD) with
      | some i =>
        some (s.takeWhile isL ++ '@' :: ((r2.takeWhile isD).take i ++ '.' ::
                (((r2.takeWhile isD).drop (i + 1)).takeWhile isT)),
              ((((r2.takeWhile isD).drop (i + 1)).drop
                  ((((r2.takeWhile isD).drop (i + 1)).takeWhile isT)).length)
                ++ r2.dropWhile isD))
      | none => none
    | _ => none

/-- One scanning pass of `String.prototype.match` with the `g` flag: try each
start position left to right, and restart after the end of each match.  The
fuel argument is initialised with the length of the input, which always
suffices because every match consumes at least one character. -/
def findMatchesAux : Nat → List Char → List (List Char)
  | 0, _ => []
  | _ + 1, [] => []
  | fuel + 1, c :: cs =>
    match matchAt (c :: cs) with
    | some (m, r) => m :: findMatchesAux fuel r
    | none => findMatchesAux fuel cs

/-- All non-overlapping matches of `EMAIL_REGEX` in `s`, as strings. -/
def findEmails (s : String) : List String :=
  (findMatchesAux s.toList.length s.toList).map String.mk

/-! ## JS string primitives -/

/-- JS `String.prototype.trim`: strip leading and trailing whitespace. -/
def trimChars (l : List Char) : List Char :=
  ((l.dropWhile Char.isWhitespace).reverse.dropWhile Char.isWhitespace).reverse

/-- JS `value.trim()` on a Lean string. -/
def jsTrim (s : String) : String :=
  String.mk (trimChars s.toList)

/-- JS `value.toLowerCase()` (ASCII; the regex only ever yields ASCII matches). -/
def jsToLower (s : String) : String :=
  String.mk (s.toList.map Char.toLower)

/-! ## The JS value tree

Arrays and objects are cons-encoded inside the single inductive so that all
traversals are plain structural recursions: the JS array `[a, b]` becomes
`arrCons a (arrCons b arrNil)` and the object `{k: v}` becomes
`objCons "k" v objNil`.  `null` also stands for JS `undefined`. -/

inductive JsValue where
  | null : JsValue
  | bool : Bool → JsValue
  | num : Int → JsValue
  | str : String → JsValue
  | arrNil : JsValue
  | arrCons : JsValue → JsValue → JsValue
  | objNil : JsValue
  | objCons : String → JsValue → JsValue → JsValue
deriving DecidableEq, Repr

/-- JS falsiness (`!value`): `undefined`/`null`, `false`, `0`, `""`.
Arrays and objects (even empty ones) are truthy. -/
def falsy : JsValue → Bool
  | .null => true
  | .bool b => !b
  | .num n => n == 0
  | .str s => s == ""
  | _ => false

/-- Property access `value?.key`: the field of an object, `undefined`
(modelled as `.null`) on anything else or when the key is absent. -/
def getField : JsValue → String → JsValue
  | .objCons k v t, key => if k == key then v else getField t key
  | _, _ => .null

/-- JS `typeof v === 'object' && v !== null`: objects and arrays qualify. -/
def isObjectLike : JsValue → Bool
  | .objNil => true
  | .objCons _ _ _ => true
  | .arrNil => true
  | .arrCons _ _ => true
  | _ => false

/-- The trim-and-drop-empty step of the `push` callback applied to the raw
regex matches of one string (chatbot.tsx lines 22–27): each match is trimmed
and empty results are dropped (matches never contain whitespace, so this is
the identity in practice, as proved below). -/
def pushCandidates (ms : List String) : List String :=
  (ms.map jsTrim).filter (fun m => m ≠ "")

/-- Source `collectEmails` (chatbot.tsx lines 14–40): recursively visit a value;
strings are scanned with the email regex, arrays element-by-element, objects
value-by-value in key order; falsy values and other scalars contribute
nothing. -/
def collectEmails : JsValue → List String
  | .null => []
  | .bool _ => []
  | .num _ => []
  | .str s => if s == "" then [] else pushCandidates (findEmails s)
  | .arrNil => []
  | .arrCons h t => collectEmails h ++ collectEmails t
  | .objNil => []
  | .objCons _ v t => collectEmails v ++ collectEmails t

/-! ## Case-insensitive de-duplication (the `push` closure, lines 125–136) -/

/-- The `seen`-set loop of the `push` closure: keep an element only if its
lowercase form is not in `seen`, recording lowercase forms as we go. -/
def dedupeGo (seen : List String) : List String → List String
  | [] => []
  | e :: es =>
    if jsToLower e ∈ seen then dedupeGo seen es
    else e :: dedupeGo (jsToLower e :: seen) es

/-- Order-preserving case-insensitive de-duplication, first-seen casing kept. -/
def dedupe (l : List String) : List String :=
  dedupeGo [] l

/-! ## Generic list helpers (own combinators, fully structural) -/

/-- Concatenation of a list of lists. -/
def concatList : List (List α) → List α
  | [] => []
  | b :: bs => b ++ concatList bs

/-- Composition `concatMap f = concatList ∘ map f`. -/
def concatMap (f : α → List β) : List α → List β
  | [] => []
  | x :: xs => f x ++ concatMap f xs

/-! ## `publicData` normalization (chatbot.tsx lines 53–69)

`JSON.parse` is a platform primitive, threaded through as the explicit
`parse` parameter; `parse s = none` models a parse that throws (the `catch`
branch).  A parsed value passes the `typeof parsed === 'object' && parsed
!== null` check exactly when it is an object or an array. -/

def publicData (parse : String → Option JsValue) (a : JsValue) : JsValue :=
  let raw := getField a "public_data"
  if falsy raw then .objNil
  else
    match raw with
    | .str s =>
      match parse s with
      | some v => if isObjectLike v then v else .objNil
      | none => .objNil
    | .arrCons h t => .arrCons h t
    | .arrNil => .arrNil
    | .objCons k v t => .objCons k v t
    | .objNil => .objNil
    | _ => .objNil

/-! ## The email harvest (`founderEmails`, chatbot.tsx lines 121–157) -/

/-- The six values harvested, in program order: the three metadata fields,
the founders sub-field of the company overview, the whole memo draft
(`analysisData.memo?.draft_v1`, line 153), then the normalized public data.
When `metadata` is falsy the source skips the three `harvest` calls inside
`if (metadata) {...}`; field access on a falsy value yields `.null` here, so
those sources contribute nothing either way. -/
def emailSources (parse : String → Option JsValue) (a : JsValue) : List JsValue :=
  let md := getField a "metadata"
  [ getField md "founder_emails",
    getField md "contact_email",
    getField md "founder_contacts",
    getField (getField (getField (getField a "memo") "draft_v1") "company_overview") "founders",
    getField (getField a "memo") "draft_v1",
    publicData parse a ]

/-- The per-source candidate streams. -/
def emailBlocks (parse : String → Option JsValue) (a : JsValue) : List (List String) :=
  (emailSources parse a).map collectEmails

/-- The full candidate stream fed, in order, to the `push` closure. -/
def rawEmailStream (parse : String → Option JsValue) (a : JsValue) : List String :=
  concatList (emailBlocks parse a)

/-- Source `founderEmails`: the ordered, case-insensitively unique harvest. -/
def founderEmails (parse : String → Option JsValue) (a : JsValue) : List String :=
  dedupe (rawEmailStream parse a)

/-- The source list CLAIMED by the spec for C2: identical except that the
fifth source is only the company-overview object, not the whole memo draft.
This definition follows the words of the spec, for comparison with
`emailSources`, which follows the code. -/
def specEmailSources (parse : String → Option JsValue) (a : JsValue) : List JsValue :=
  let md := getField a "metadata"
  [ getField md "founder_emails",
    getField md "contact_email",
    getField md "founder_contacts",
    getField (getField (getField (getField a "memo") "draft_v1") "company_overview") "founders",
    getField (getField (getField a "memo") "draft_v1") "company_overview",
    publicData parse a ]

/-- The harvest the C2 claim describes, over `specEmailSources`. -/
def specFounderEmails (parse : String → Option JsValue) (a : JsValue) : List String :=
  dedupe (concatList ((specEmailSources parse a).map collectEmails))

/-! ## Identity resolution (chatbot.tsx lines 71–119) -/

/-- Source `coerce` (line 77): trim a string value, anything else becomes `""`. -/
def coerce : JsValue → String
  | .str s => jsTrim s
  | _ => ""

/-- JS `x || y` on strings (`""` is the only falsy string). -/
def strOr (x y : String) : String :=
  if x = "" then y else x

/-- Reads of `namesMeta.company` etc go through `analysisData.metadata?.names ?? {}`;
field access through `getField` already yields `.null` on non-objects. -/
def namesMeta (a : JsValue) (key : String) : JsValue :=
  getField (getField (getField a "metadata") "names") key

/-- Source `companyName` (lines 79–83). -/
def companyName (a : JsValue) : String :=
  strOr (coerce (namesMeta a "company"))
    (strOr (coerce (getField (getField a "metadata") "company_legal_name"))
      (strOr (coerce (getField (getField a "metadata") "company_name"))
        (coerce (getField (getField (getField (getField a "memo") "draft_v1") "company_overview") "name"))))

/-- One `value.replace(/\s+/g, ' ')` step: the flag records whether the
previous character was part of a whitespace run already replaced. -/
def collapseWsAux (prevWs : Bool) : List Char → List Char
  | [] => []
  | c :: cs =>
    if c.isWhitespace then
      if prevWs then collapseWsAux true cs
      else ' ' :: collapseWsAux true cs
    else c :: collapseWsAux false cs

/-- JS `trimmed.replace(/\s+/g, ' ')` (line 90). -/
def collapseWs (s : String) : String :=
  String.mk (collapseWsAux false s.toList)

/-- JS `String.prototype.split` on a single separator character.  On the empty
string this yields `[""]`, exactly as in JS. -/
def splitOnAux (sep : Char) (cur : List Char) : List Char → List String
  | [] => [String.mk cur.reverse]
  | c :: cs =>
    if c == sep then String.mk cur.reverse :: splitOnAux sep [] cs
    else splitOnAux sep (c :: cur) cs

/-- JS `normalized.split(' ').length` (line 91). -/
def wordCount (s : String) : Nat :=
  (splitOnAux ' ' [] s.toList).length

/-- Source `sanitizeProductName` (lines 85–96): trim; reject empty; collapse
whitespace runs; reject when longer than 60 characters or more than 6
space-separated words; otherwise return the normalized name. -/
def sanitizeProductName (value : String) : Option String :=
  let trimmed := jsTrim value
  if trimmed = "" then none
  else
    let normalized := collapseWs trimmed
    if normalized.length > 60 || wordCount normalized > 6 then none
    else some normalized

/-- Source `rawProductName` (lines 98–101): first non-empty coerced value among the
names-bag product field and the `product_name` metadata field, else `""`. -/
def rawProductName (a : JsValue) : String :=
  strOr (coerce (namesMeta a "product"))
    (strOr (coerce (getField (getField a "metadata") "product_name")) "")

/-- Source `memoProductCandidate` (line 103): the coerced memo technology field. -/
def memoProductCandidate (a : JsValue) : String :=
  coerce (getField (getField (getField (getField a "memo") "draft_v1") "company_overview") "technology")

/-- Source `productName` (lines 105–107).  `sanitizeProductName` never returns the
empty string, so the JS `||` between the two branches is `Option.or`. -/
def productName (a : JsValue) : Option String :=
  (sanitizeProductName (rawProductName a)).or
    (if memoProductCandidate a ≠ "" then sanitizeProductName (memoProductCandidate a) else none)

/-- Source `displayName` (lines 109–114); a `none`/empty product behaves as falsy
in the JS `||` chain, hence `(productName a).getD ""`. -/
def displayName (a : JsValue) : String :=
  strOr (coerce (namesMeta a "display"))
    (strOr (coerce (getField (getField a "metadata") "display_name"))
      (strOr (companyName a)
        (strOr ((productName a).getD "") "the company")))

/-- Source `showProduct` (lines 116–118). -/
def showProduct (a : JsValue) : Bool :=
  match productName a with
  | none => false
  | some p => if companyName a = "" ∨ jsToLower p ≠ jsToLower (companyName a) then true else false

/-- Source `combinedName` (line 119). -/
def combinedName (a : JsValue) : String :=
  match productName a with
  | none => strOr (companyName a) (displayName a)
  | some p =>
    if companyName a = "" ∨ jsToLower p ≠ jsToLower (companyName a) then
      strOr (companyName a) (displayName a) ++ " (Product: " ++ p ++ ")"
    else strOr (companyName a) (displayName a)

/-! ## Mail composition (chatbot.tsx lines 159–184) -/

/-- Source `mailSubject` (line 159). -/
def mailSubject (a : JsValue) : String :=
  "Intro call request – " ++ combinedName a

/-- Source `fallbackCompany` (line 160). -/
def fallbackCompany (a : JsValue) : String :=
  strOr (companyName a) (strOr (displayName a) (strOr ((productName a).getD "") "your company"))

/-- Source `productLabel` (line 161). -/
def productLabel (a : JsValue) : String :=
  strOr ((productName a).getD "") "your product"

/-- Source `mailBody` (lines 163–173). -/
def mailBody (a : JsValue) : String :=
  String.intercalate "\n"
    [ "Hi,",
      "",
      "I\x27d love to schedule time to discuss about (" ++ productLabel a
        ++ ") from your company (" ++ fallbackCompany a ++ ").",
      "Are you available for a 30-minute call this week to cover product traction, go-to-market, and financial plans?",
      "",
      "Looking forward to the conversation.",
      "",
      "Best regards,",
      "[Your Name]" ]

/-- UTF-8 bytes of a character, as plain naturals. -/
def utf8Bytes (c : Char) : List Nat :=
  let n := c.toNat
  if n < 0x80 then [n]
  else if n < 0x800 then [0xC0 + n / 64, 0x80 + n % 64]
  else if n < 0x10000 then [0xE0 + n / 4096, 0x80 + (n / 64) % 64, 0x80 + n % 64]
  else [0xF0 + n / 262144, 0x80 + (n / 4096) % 64, 0x80 + (n / 64) % 64, 0x80 + n % 64]

/-- Upper-case hexadecimal digit. -/
def hexDigit (n : Nat) : Char :=
  ("0123456789ABCDEF".toList.getD n '0')

/-- One byte of the `application/x-www-form-urlencoded` serializer used by
`URLSearchParams.toString()`: space becomes `+`; ASCII alphanumerics and
`*`, `-`, `.`, `_` pass through; everything else is percent-encoded. -/
def encodeFormByte (b : Nat) : List Char :=
  if b = 32 then ['+']
  else if (48 ≤ b ∧ b ≤ 57) ∨ (65 ≤ b ∧ b ≤ 90) ∨ (97 ≤ b ∧ b ≤ 122)
      ∨ b = 42 ∨ b = 45 ∨ b = 46 ∨ b = 95 then [Char.ofNat b]
  else ['%', hexDigit (b / 16), hexDigit (b % 16)]

/-- The `application/x-www-form-urlencoded` encoding of a string. -/
def encodeForm (s : String) : String :=
  String.mk (concatMap encodeFormByte (concatMap utf8Bytes s.toList))

/-- Join query segments with `&`. -/
def joinAmp : List String → String
  | [] => ""
  | [x] => x
  | x :: xs => x ++ "&" ++ joinAmp xs

/-- Serialization of a parameter list, as `URLSearchParams.toString()`:
each name and value form-encoded, joined as `name=value` pairs with `&`. -/
def serializeParams (ps : List (String × String)) : String :=
  joinAmp (ps.map (fun kv => encodeForm kv.1 ++ "=" ++ encodeForm kv.2))

/-- Source `gmailParams` (lines 175–183): the four fixed parameters in insertion
order, with `to` appended only when the harvested email list is non-empty. -/
def gmailParams (parse : String → Option JsValue) (a : JsValue) : List (String × String) :=
  let base := [("view", "cm"), ("fs", "1"), ("su", mailSubject a), ("body", mailBody a)]
  if (founderEmails parse a).length > 0 then
    base ++ [("to", String.intercalate "," (founderEmails parse a))]
  else base

/-- Source `gmailLink` (line 184). -/
def gmailLink (parse : String → Option JsValue) (a : JsValue) : String :=
  "https://mail.google.com/mail/?" ++ serializeParams (gmailParams parse a)

/-! ## Reply-to-blocks formatter (chatbot.tsx lines 201–241)

The claims are about block structure, so blocks are modelled at the level of
their text content (a paragraph line, or the stripped bullet items). -/

inductive Block where
  | para : String → Block
  | bullets : List String → Block
deriving DecidableEq, Repr

/-- Split on `/\r?\n/`: a line break is `\n`, optionally eating one `\r`
just before it. -/
def splitLinesAux (cur : List Char) : List Char → List String
  | [] => [String.mk cur.reverse]
  | '\r' :: '\n' :: rest => String.mk cur.reverse :: splitLinesAux [] rest
  | '\n' :: rest => String.mk cur.reverse :: splitLinesAux [] rest
  | c :: rest => splitLinesAux (c :: cur) rest

/-- JS `text.split(/\r?\n/)`. -/
def splitLines (s : String) : List String :=
  splitLinesAux [] s.toList

/-- JS `line.startsWith('•')`. -/
def startsWithBullet (line : String) : Bool :=
  match line.toList with
  | c :: _ => c == '•'
  | [] => false

/-- JS `line.slice(1).trim()`: the bullet marker stripped, the item trimmed. -/
def stripBullet (line : String) : String :=
  jsTrim (String.mk (line.toList.drop 1))

/-- The `flushList` step (lines 210–220): an empty buffer emits nothing, a
non-empty buffer emits one bullet-list block. -/
def flushList (buf : List String) : List Block :=
  if buf = [] then [] else [Block.bullets buf]

/-- The `lines.forEach` loop (lines 222–239) over the remaining lines, with
the current list buffer.  The source flushes the buffer inside the bullet
branch when the bullet is the last line and flushes again after the loop;
both collapse to the single flush in the `[]` case here. -/
def scanLines : List String → List String → List Block
  | buf, [] => flushList buf
  | buf, line :: rest =>
    if startsWithBullet line then scanLines (buf ++ [stripBullet line]) rest
    else flushList buf ++ Block.para line :: scanLines [] rest

/-- Source `renderMessageContent` (lines 201–241): trim and drop empty lines; if
none remain, a single paragraph holding the untouched input; otherwise the
bullet-buffering scan. -/
def renderMessageContent (text : String) : List Block :=
  let lines := ((splitLines text).map jsTrim).filter (fun l => l ≠ "")
  if lines = [] then [Block.para text]
  else scanLines [] lines

/-! ## Conversation operations (chatbot.tsx lines 243–294)

State is the triple managed by the three `useState` hooks.  The network
round trip of a request is represented by an `Except Unit String` outcome:
`.ok msg` is a successful reply, `.error ()` a request that threw. -/

inductive Role where
  | user : Role
  | model : Role
deriving DecidableEq, Repr

structure ChatMessage where
  role : Role
  content : String
deriving DecidableEq, Repr

structure ChatState where
  messages : List ChatMessage
  input : String
  isLoading : Bool
deriving DecidableEq, Repr

/-- Source `handleSendMessage` (lines 274–294), synchronous phase: return early on
input that trims to empty; otherwise append the user message (with its
original, untrimmed text), clear the input, raise the loading flag, and
issue the request.  The boolean records whether a request was issued. -/
def handleSendMessage (s : ChatState) : ChatState × Bool :=
  if jsTrim s.input = "" then (s, false)
  else ({ messages := s.messages ++ [{ role := Role.user, content := s.input }],
          input := "", isLoading := true }, true)

/-- The send operation as a user can actually trigger it.  While a request
is in flight (`isLoading`) the input field and send button are disabled and
the Enter handler is short-circuited by `!isLoading` (lines 349–353), so
`handleSendMessage` only runs when no request is in flight. -/
def send (s : ChatState) : ChatState × Bool :=
  if s.isLoading then (s, false) else handleSendMessage s

/-- The fixed fallback string appended when a send request fails (line 290). -/
def sendFallbackText : String :=
  "Sorry, something went wrong. Please try again."

/-- The fixed apology string when the opening request fails (line 253). -/
def startApologyText : String :=
  "Sorry, I am having trouble starting the conversation. Please try refreshing."

/-- Completion of a send request (lines 283–293): append the reply on
success, the fixed fallback on failure, and clear the loading flag. -/
def resolveSend (s : ChatState) (outcome : Except Unit String) : ChatState :=
  match outcome with
  | .ok msg =>
    { s with messages := s.messages ++ [{ role := Role.model, content := msg }],
             isLoading := false }
  | .error _ =>
    { s with messages := s.messages ++ [{ role := Role.model, content := sendFallbackText }],
             isLoading := false }

/-- Source `getInitialBotMessage` (lines 243–257), with the request outcome made
explicit: the history is replaced by a single model message — the reply on
success, the fixed apology on failure — and the loading flag is cleared in
the `finally` block.  A failure is absorbed by the `catch`: the operation is
a total function of the outcome and never re-throws. -/
def getInitialBotMessage (s : ChatState) (outcome : Except Unit String) : ChatState :=
  match outcome with
  | .ok msg =>
    { s with messages := [{ role := Role.model, content := msg }], isLoading := false }
  | .error _ =>
    { s with messages := [{ role := Role.model, content := startApologyText }],
             isLoading := false }

/-! ## Concrete inputs used by examples, witnesses and counterexamples -/

/-- A `JSON.parse` stand-in that always throws; none of the concrete inputs
below carries a string `public_data`, so the choice is irrelevant there. -/
def parse0 : String → Option JsValue := fun _ => none

/-- Record with `metadata.founder_emails = "a@x.com"` and `metadata.contact_email = "A@X.com"`. -/
def c1ex : JsValue :=
  .objCons "metadata"
    (.objCons "founder_emails" (.str "a@x.com")
      (.objCons "contact_email" (.str "A@X.com") .objNil)) .objNil

/-- A memo draft whose company overview is empty but that carries an email
in another draft field. -/
def c2ex : JsValue :=
  .objCons "memo"
    (.objCons "draft_v1"
      (.objCons "company_overview" .objNil
        (.objCons "extra" (.str "x@y.com") .objNil)) .objNil) .objNil

/-- Names bag product of 7 words (fails sanitization) next to a metadata
`product_name` that would pass it. -/
def c6ex : JsValue :=
  .objCons "metadata"
    (.objCons "names" (.objCons "product" (.str "a b c d e f g") .objNil)
      (.objCons "product_name" (.str "Acme") .objNil)) .objNil

/-- Only a metadata `product_name`, which passes sanitization. -/
def c6ex2 : JsValue :=
  .objCons "metadata" (.objCons "product_name" (.str "Acme") .objNil) .objNil

/-- A record with one harvestable founder email. -/
def c9ex : JsValue :=
  .objCons "metadata" (.objCons "founder_emails" (.str "a@x.com") .objNil) .objNil

/-! ## De-duplication lemmas -/

/-- The de-duplicated list is a sublist of the input: every kept address
appears with its original casing, in stream order. -/
theorem dedupeGo_sublist (l : List String) : ∀ seen, (dedupeGo seen l).Sublist l := by
  induction l with
  | nil => intro seen; simp [dedupeGo]
  | cons e es ih =>
    intro seen
    simp only [dedupeGo]
    split
    · exact (ih seen).cons e
    · exact (ih _).cons₂ e

/-- Every output element of the de-duplication loop has a fresh lowercase
form and stands at the first position of the input whose lowercase form is
its own (first-seen position, first-seen casing). -/
theorem dedupeGo_mem_decomp (l : List String) :
    ∀ seen f, f ∈ dedupeGo seen l →
      jsToLower f ∉ seen ∧
      ∃ p q, l = p ++ f :: q ∧ ∀ w ∈ p, jsToLower w ≠ jsToLower f := by
  induction l with
  | nil => intro seen f h; simp [dedupeGo] at h
  | cons e es ih =>
    intro seen f h
    simp only [dedupeGo] at h
    split at h
    case isTrue hmem =>
      obtain ⟨hns, p, q, heq, hfree⟩ := ih seen f h
      refine ⟨hns, e :: p, q, by rw [heq]; simp, ?_⟩
      intro w hw
      rcases List.mem_cons.mp hw with rfl | hw
      · exact fun hEq => hns (hEq ▸ hmem)
      · exact hfree w hw
    case isFalse hnmem =>
      rcases List.mem_cons.mp h with rfl | h
      · exact ⟨hnmem, [], es, rfl, by simp⟩
      · obtain ⟨hns, p, q, heq, hfree⟩ := ih _ f h
        have hne : jsToLower e ≠ jsToLower f := by
          intro hEq
          exact hns (hEq ▸ List.mem_cons_self _ _)
        refine ⟨fun hmem => hns (List.mem_cons_of_mem _ hmem), e :: p, q, by rw [heq]; simp, ?_⟩
        intro w hw
        rcases List.mem_cons.mp hw with rfl | hw
        · exact hne
        · exact hfree w hw

/-- No address is lost: every input element has a case-insensitive
representative in the output. -/
theorem dedupeGo_complete (l : List String) :
    ∀ seen e, e ∈ l → jsToLower e ∉ seen →
      ∃ f ∈ dedupeGo seen l, jsToLower f = jsToLower e := by
  induction l with
  | nil => intro seen e he; simp at he
  | cons hd tl ih =>
    intro seen e he hns
    simp only [dedupeGo]
    split
    case isTrue hmem =>
      rcases List.mem_cons.mp he with rfl | he
      · exact absurd hmem hns
      · exact ih seen e he hns
    case isFalse hnmem =>
      rcases List.mem_cons.mp he with rfl | he
      · exact ⟨e, List.mem_cons_self _ _, rfl⟩
      · by_cases hEq : jsToLower e = jsToLower hd
        · exact ⟨hd, List.mem_cons_self _ _, hEq.symm⟩
        · obtain ⟨f, hf, hfe⟩ := ih (jsToLower hd :: seen) e he (by
            intro hmem
            rcases List.mem_cons.mp hmem with h | h
            · exact hEq h
            · exact hns h)
          exact ⟨f, List.mem_cons_of_mem _ hf, hfe⟩

/-- Relation stating `x` is first seen strictly before `y` in `l`: a decomposition of `l`
putting `x` at the first position with its lowercase form and `y` at the
first position (after it) with its own. -/
def firstBefore (l : List String) (x y : String) : Prop :=
  ∃ p m q, l = p ++ x :: (m ++ y :: q) ∧
    (∀ w ∈ p, jsToLower w ≠ jsToLower x) ∧
    (∀ w ∈ p, jsToLower w ≠ jsToLower y) ∧
    (∀ w ∈ m, jsToLower w ≠ jsToLower y) ∧
    jsToLower x ≠ jsToLower y

/-- Proposition `firstBefore` is preserved by prepending an element that matches
neither side. -/
theorem firstBefore_cons {l : List String} {x y e : String}
    (h : firstBefore l x y)
    (hx : jsToLower e ≠ jsToLower x) (hy : jsToLower e ≠ jsToLower y) :
    firstBefore (e :: l) x y := by
  obtain ⟨p, m, q, heq, h1, h2, h3, h4⟩ := h
  refine ⟨e :: p, m, q, by rw [heq]; simp, ?_, ?_, h3, h4⟩
  · intro w hw
    rcases List.mem_cons.mp hw with rfl | hw
    · exact hx
    · exact h1 w hw
  · intro w hw
    rcases List.mem_cons.mp hw with rfl | hw
    · exact hy
    · exact h2 w hw

/-- The output of the de-duplication loop is ordered by first-seen position:
any two output elements, in output order, are first seen in that order in
the input stream. -/
theorem dedupeGo_pairwise (l : List String) :
    ∀ seen, (dedupeGo seen l).Pairwise (firstBefore l) := by
  induction l with
  | nil => intro seen; simp [dedupeGo]
  | cons e es ih =>
    intro seen
    simp only [dedupeGo]
    split
    case isTrue hmem =>
      refine (ih seen).imp_of_mem ?_
      intro a b ha hb hR
      have hna := (dedupeGo_mem_decomp es seen a ha).1
      have hnb := (dedupeGo_mem_decomp es seen b hb).1
      refine firstBefore_cons hR ?_ ?_
      · exact fun hEq => hna (hEq ▸ hmem)
      · exact fun hEq => hnb (hEq ▸ hmem)
    case isFalse hnmem =>
      refine List.Pairwise.cons ?_ ?_
      · intro y hy
        obtain ⟨hny, p, q, heq, hfree⟩ := dedupeGo_mem_decomp es _ y hy
        have hne : jsToLower e ≠ jsToLower y := by
          intro hEq
          exact hny (hEq ▸ List.mem_cons_self _ _)
        exact ⟨[], p, q, by rw [heq]; rfl, by simp, by simp, hfree, hne⟩
      · refine (ih _).imp_of_mem ?_
        intro a b ha hb hR
        have hna := (dedupeGo_mem_decomp es _ a ha).1
        have hnb := (dedupeGo_mem_decomp es _ b hb).1
        refine firstBefore_cons hR ?_ ?_
        · exact fun hEq => hna (hEq ▸ List.mem_cons_self _ _)
        · exact fun hEq => hnb (hEq ▸ List.mem_cons_self _ _)

/-- C1: for every input, the email harvest returns a list with no duplicate
addresses under case-insensitive comparison — pairwise distinct lowercase
forms — and each address is kept with its first-seen casing at its
first-seen position: the output is a sublist of the raw candidate stream,
every candidate has a case-insensitive representative in the output, and
each output element occurs in the stream before any other candidate with
the same lowercase form.  In particular the record with
`metadata.founder_emails = "a@x.com"` and `metadata.contact_email =
"A@X.com"` harvests exactly `["a@x.com"]`. -/
theorem c1_harvest_unique_first_seen :
    (∀ (parse : String → Option JsValue) (a : JsValue),
      (founderEmails parse a).Pairwise (fun x y => jsToLower x ≠ jsToLower y) ∧
      (founderEmails parse a).Sublist (rawEmailStream parse a) ∧
      (∀ e ∈ rawEmailStream parse a,
        ∃ f ∈ founderEmails parse a, jsToLower f = jsToLower e) ∧
      (∀ f ∈ founderEmails parse a,
        ∃ p q, rawEmailStream parse a = p ++ f :: q ∧
          ∀ w ∈ p, jsToLower w ≠ jsToLower f)) ∧
    founderEmails parse0 c1ex = ["a@x.com"] := by
  constructor
  · intro parse a
    refine ⟨?_, ?_, ?_, ?_⟩
    · refine (dedupeGo_pairwise _ _).imp (fun h => ?_)
      obtain ⟨p, m, q, _, _, _, _, h4⟩ := h
      exact h4
    · exact dedupeGo_sublist _ _
    · intro e he
      exact dedupeGo_complete _ [] e he (by simp)
    · intro f hf
      exact (dedupeGo_mem_decomp _ [] f hf).2
  · decide

/-- Witness for C1 at the concrete record: the second candidate
`"A@X.com"` of the raw stream is represented case-insensitively in the
harvest. -/
theorem c1_harvest_unique_first_seen_witness :
    ∃ f ∈ founderEmails parse0 c1ex, jsToLower f = jsToLower "A@X.com" :=
  (c1_harvest_unique_first_seen.1 parse0 c1ex).2.2.1 "A@X.com" (by decide)

/-! ## Source-order lemmas for C2 -/

/-- Does the candidate block `b` contain `e` up to case? -/
def ciAny (b : List String) (e : String) : Bool :=
  b.any (fun q => jsToLower q == jsToLower e)

/-- Index of the first source block containing `e` up to case (the number
of blocks when none does). -/
def firstSourceIdx (blocks : List (List String)) (e : String) : Nat :=
  blocks.findIdx (fun b => ciAny b e)

/-- The element at the length of the left append factor. -/
theorem get_append_length (p : List α) (x : α) (t : List α) :
    (p ++ x :: t).get? p.length = some x := by
  induction p with
  | nil => rfl
  | cons h tl ih => simpa using ih

/-- Lookup in an append stays in the left factor below its length. -/
theorem get?_append_of_lt : ∀ (l₁ l₂ : List α) (n : Nat), n < l₁.length →
    (l₁ ++ l₂).get? n = l₁.get? n := by
  intro l₁
  induction l₁ with
  | nil => intro l₂ n h; simp at h
  | cons a t ih =>
    intro l₂ n h
    cases n with
    | zero => rfl
    | succ m => simpa using ih l₂ m (by simpa using h)

/-- Splitting an equality of appends when the left factor is the shorter. -/
theorem append_factor (b rest p s : List α) (h : b ++ rest = p ++ s)
    (hlen : b.length ≤ p.length) : ∃ t, p = b ++ t ∧ rest = t ++ s := by
  induction b generalizing p with
  | nil => exact ⟨p, rfl, h⟩
  | cons c b' ih =>
    cases p with
    | nil => simp at hlen
    | cons d p' =>
      have hc : c = d ∧ b' ++ rest = p' ++ s := by simpa using h
      obtain ⟨t, hp, hr⟩ := ih p' hc.2 (by simpa using hlen)
      exact ⟨t, by simp [hc.1, hp], hr⟩

/-- Being first seen earlier in the concatenated candidate stream implies
being first discovered in an earlier (or the same) source block. -/
theorem firstBefore_concat_mono (blocks : List (List String)) (x y : String)
    (h : firstBefore (concatList blocks) x y) :
    firstSourceIdx blocks x ≤ firstSourceIdx blocks y := by
  induction blocks with
  | nil =>
    obtain ⟨p, m, q, heq, _⟩ := h
    simp [concatList] at heq
  | cons b bs ih =>
    by_cases hx : ciAny b x = true
    · simp [firstSourceIdx, List.findIdx_cons, hx]
    · obtain ⟨p, m, q, heq, h1, h2, h3, h4⟩ := h
      have heq' : b ++ concatList bs = p ++ x :: (m ++ y :: q) := by
        simpa [concatList] using heq
      have hlen : b.length ≤ p.length := by
        by_contra hlt
        push_neg at hlt
        have hx' : (b ++ concatList bs).get? p.length = some x := by
          rw [heq']; exact get_append_length p x _
        rw [get?_append_of_lt _ _ _ hlt] at hx'
        have hxb : x ∈ b := List.get?_mem hx'
        apply hx
        unfold ciAny
        rw [List.any_eq_true]
        exact ⟨x, hxb, by simp⟩
      obtain ⟨t, hp, hr⟩ := append_factor b (concatList bs) p _ heq' hlen
      have hy : ¬ ciAny b y = true := by
        intro hcy
        unfold ciAny at hcy
        rw [List.any_eq_true] at hcy
        obtain ⟨w, hwb, hweq⟩ := hcy
        have hwp : w ∈ p := by rw [hp]; exact List.mem_append_left _ hwb
        exact h2 w hwp (by simpa using hweq)
      have hR : firstBefore (concatList bs) x y := by
        refine ⟨t, m, q, hr, ?_, ?_, h3, h4⟩
        · intro w hw
          exact h1 w (by rw [hp]; exact List.mem_append_right _ hw)
        · intro w hw
          exact h2 w (by rw [hp]; exact List.mem_append_right _ hw)
      have hle := ih hR
      simp only [firstSourceIdx, List.findIdx_cons, Bool.not_eq_true] at *
      rw [hx, hy]
      simpa using Nat.succ_le_succ hle

/-- Counterexample to C2 as stated: in `c2ex` the email `x@y.com` sits in a
memo-draft field outside the company overview.  The code (fifth source: the
whole `memo.draft_v1`) harvests it, while the source list claimed by the
spec (fifth source: only the company-overview object) yields nothing — so a
source other than the six claimed ones contributes. -/
theorem c2_counterexample :
    founderEmails parse0 c2ex = ["x@y.com"] ∧ specFounderEmails parse0 c2ex = [] := by
  constructor
  · decide
  · decide

/-- C2 amended: the harvest visits, in order, the explicit founder-email
field, the explicit contact-email field, the explicit founder-contacts
field, the founders sub-field of the company overview, the ENTIRE memo
draft object (which contains the company overview), then the normalized
public-data object; only these sources contribute, and an email first
discovered in an earlier source precedes every email first discovered in a
later source. -/
theorem c2_source_order :
    ∀ (parse : String → Option JsValue) (a : JsValue),
      founderEmails parse a = dedupe (concatList (emailBlocks parse a)) ∧
      (founderEmails parse a).Pairwise
        (fun x y => firstSourceIdx (emailBlocks parse a) x
          ≤ firstSourceIdx (emailBlocks parse a) y) := by
  intro parse a
  refine ⟨rfl, ?_⟩
  exact (dedupeGo_pairwise _ _).imp (fun h => firstBefore_concat_mono _ _ _ h)

/-- Witness for C2 at the concrete record of C1. -/
theorem c2_source_order_witness :
    founderEmails parse0 c1ex = dedupe (concatList (emailBlocks parse0 c1ex)) ∧
    (founderEmails parse0 c1ex).Pairwise
      (fun x y => firstSourceIdx (emailBlocks parse0 c1ex) x
        ≤ firstSourceIdx (emailBlocks parse0 c1ex) y) :=
  c2_source_order parse0 c1ex

/-! ## C3 and C4: conversation operations -/

/-- C3: the send operation is a no-op — messages, pending input and the
loading flag all unchanged, and no request issued — whenever the user text
trims to empty or a request is already in flight. -/
theorem c3_send_noop :
    ∀ s : ChatState, (jsTrim s.input = "" ∨ s.isLoading = true) → send s = (s, false) := by
  intro s h
  unfold send handleSendMessage
  rcases h with h | h
  · rw [h]
    simp
  · rw [h]
    simp

/-- Witness for C3: sending whitespace-only input from an idle state leaves
the state untouched and issues no request. -/
theorem c3_send_noop_witness :
    send { messages := [], input := "   ", isLoading := false }
      = ({ messages := [], input := "   ", isLoading := false }, false) :=
  c3_send_noop _ (Or.inl (by decide))

/-- C4: if the opening request fails, the history becomes exactly one model
message carrying the fixed apology string and the loading flag is cleared
(the controller is idle again); the pending input is untouched.
`getInitialBotMessage` is a total function of the outcome — the `catch`
absorbs the failure, which is never re-thrown to the caller. -/
theorem c4_start_failure :
    ∀ (s : ChatState) (e : Unit),
      getInitialBotMessage s (Except.error e)
        = { messages := [{ role := Role.model, content := startApologyText }],
            input := s.input, isLoading := false } := by
  intro s e
  rfl

/-- Witness for C4 at a concrete mid-loading state. -/
theorem c4_start_failure_witness :
    getInitialBotMessage { messages := [], input := "", isLoading := true } (Except.error ())
      = { messages := [{ role := Role.model, content := startApologyText }],
          input := "", isLoading := false } :=
  (c4_start_failure { messages := [], input := "", isLoading := true } ()).trans (by decide)

/-! ## C5: product-name sanitization -/

/-- Counterexample to C5 as stated: on the empty string the sanitizer
returns no candidate, yet the normalized string neither exceeds 60
characters nor has more than 6 space-separated words — so "no candidate
exactly when over-long or over-worded" is false: the sanitizer also rejects
input that trims to empty. -/
theorem c5_counterexample :
    sanitizeProductName "" = none ∧
    ¬ ((collapseWs (jsTrim "")).length > 60 ∨ wordCount (collapseWs (jsTrim "")) > 6) := by
  constructor
  · decide
  · decide

/-- C5 amended: sanitization trims its input and collapses internal
whitespace runs to single spaces, and returns no candidate exactly when the
input trims to empty, or the normalized string exceeds 60 characters, or it
has more than 6 space-separated words; any returned candidate is the
normalized string itself.  A 7-word candidate is rejected and
`"Acme Robotics"` is returned unchanged. -/
theorem c5_sanitize :
    (∀ v : String,
      (sanitizeProductName v = none ↔
        (jsTrim v = "" ∨ (collapseWs (jsTrim v)).length > 60
          ∨ wordCount (collapseWs (jsTrim v)) > 6)) ∧
      (sanitizeProductName v ≠ none → sanitizeProductName v = some (collapseWs (jsTrim v)))) ∧
    sanitizeProductName "the quick brown fox jumps over lazily" = none ∧
    sanitizeProductName "Acme Robotics" = some "Acme Robotics" := by
  refine ⟨?_, by decide, by decide⟩
  intro v
  by_cases h1 : jsTrim v = ""
  · constructor
    · simp [sanitizeProductName, h1]
    · intro hne
      exact absurd (by simp [sanitizeProductName, h1]) hne
  · by_cases h2 : (collapseWs (jsTrim v)).length > 60 ∨ wordCount (collapseWs (jsTrim v)) > 6
    · have hb : ((collapseWs (jsTrim v)).length > 60
          || wordCount (collapseWs (jsTrim v)) > 6) = true := by
        rcases h2 with h | h <;> simp [h]
      constructor
      · simp [sanitizeProductName, h1, hb, h2]
      · intro hne
        exact absurd (by simp [sanitizeProductName, h1, hb]) hne
    · push_neg at h2
      have hb : ((collapseWs (jsTrim v)).length > 60
          || wordCount (collapseWs (jsTrim v)) > 6) = false := by
        simp only [Bool.or_eq_false_iff, decide_eq_false_iff_not, Nat.not_lt]
        exact ⟨h2.1, h2.2⟩
      constructor
      · simp [sanitizeProductName, h1, hb, Nat.not_lt]
        exact ⟨h2.1, h2.2⟩
      · intro _
        simp [sanitizeProductName, h1, hb]

/-- Witness for C5: a padded two-word name is trimmed and collapsed. -/
theorem c5_sanitize_witness :
    sanitizeProductName " hi   there " = some "hi there" :=
  ((c5_sanitize.1 " hi   there ").2 (by decide)).trans (by decide)

/-! ## C6: product-name resolution -/

/-- Counterexample to C6 as stated: in `c6ex` the names-bag product field is
a 7-word string that fails sanitization while the `product_name` metadata
field is `"Acme"`, which passes it.  The claim would resolve the product
name to `"Acme"`, but the code only sanitizes the first non-empty raw
candidate and resolves no product name at all. -/
theorem c6_counterexample :
    productName c6ex = none ∧
    sanitizeProductName (coerce (getField (getField c6ex "metadata") "product_name"))
      = some "Acme" ∧
    sanitizeProductName (coerce (namesMeta c6ex "product")) = none := by
  refine ⟨by decide, by decide, by decide⟩

/-- C6 amended: the product name is obtained by sanitizing only the FIRST
non-empty (coerced) value among the display-names-bag product field and the
`product_name` metadata field; when that value is empty or fails
sanitization, the product name is the memo technology field passed through
sanitization provided it is non-empty, and otherwise it is absent.  The
`c6ex` record (first candidate fails, second would pass) resolves to no
product name; `c6ex2` (only `product_name = "Acme"`) resolves to `"Acme"`. -/
theorem c6_product_precedence :
    (∀ a : JsValue,
      productName a =
        (sanitizeProductName
            (if coerce (namesMeta a "product") ≠ ""
              then coerce (namesMeta a "product")
              else coerce (getField (getField a "metadata") "product_name"))).or
          (if memoProductCandidate a ≠ ""
            then sanitizeProductName (memoProductCandidate a) else none)) ∧
    productName c6ex = none ∧
    productName c6ex2 = some "Acme" := by
  refine ⟨?_, by decide, by decide⟩
  intro a
  unfold productName rawProductName strOr
  by_cases h1 : coerce (namesMeta a "product") = ""
  · by_cases h2 : coerce (getField (getField a "metadata") "product_name") = ""
    · simp [h1, h2]
    · simp [h1, h2]
  · simp [h1]

/-- Witness for C6 on a record resolving a product name through the
`product_name` metadata field. -/
theorem c6_product_precedence_witness : productName c6ex2 = some "Acme" :=
  c6_product_precedence.2.2

/-! ## C7: display name -/

/-- Function `strOr` keeps non-emptiness of its fallback. -/
theorem strOr_ne_empty (x : String) {y : String} (hy : y ≠ "") : strOr x y ≠ "" := by
  unfold strOr
  split
  · exact hy
  · assumption

/-- C7: identity resolution is a total function (it never throws) and the
display name is non-empty for every analysis record; the empty record — and
even a missing record — yields the literal `"the company"`. -/
theorem c7_display_name_total :
    (∀ a : JsValue, displayName a ≠ "") ∧
    displayName JsValue.objNil = "the company" ∧
    displayName JsValue.null = "the company" := by
  refine ⟨?_, by decide, by decide⟩
  intro a
  unfold displayName
  exact strOr_ne_empty _ (strOr_ne_empty _ (strOr_ne_empty _ (strOr_ne_empty _ (by decide))))

/-- Witness for C7 on a record with only a display-names-bag entry. -/
theorem c7_display_name_total_witness :
    displayName (JsValue.objCons "metadata"
      (JsValue.objCons "names" (JsValue.objCons "display" (JsValue.str " Acme ") JsValue.objNil)
        JsValue.objNil) JsValue.objNil) ≠ "" :=
  c7_display_name_total.1 _

/-! ## C8: the reply-to-blocks formatter -/

/-- A run of bullet lines at the head of the remaining input lands, marker
stripped and in order, at the end of the list buffer. -/
theorem scanLines_bullet_accum :
    ∀ (bs buf rest : List String),
      (∀ b ∈ bs, startsWithBullet b = true) →
      scanLines buf (bs ++ rest) = scanLines (buf ++ bs.map stripBullet) rest := by
  intro bs
  induction bs with
  | nil =>
    intro buf rest _
    simp
  | cons b bs' ih =>
    intro buf rest hb
    have hhd : startsWithBullet b = true := hb b (List.mem_cons_self _ _)
    simp only [List.cons_append, scanLines, hhd, if_true, List.append_eq]
    rw [ih (buf ++ [stripBullet b]) rest (fun x hx => hb x (List.mem_cons_of_mem _ hx))]
    simp

/-- C8: consecutive bullet lines are buffered, marker stripped, and emitted
as one bullet-list block, in buffered order, right before the paragraph of
the next non-bullet line; a buffer remaining after the last line is flushed
as a final bullet list.  In particular
`"• one\n• two\nplain line"` formats as `BulletList["one","two"]` followed
by `Paragraph["plain line"]`. -/
theorem c8_formatter_blocks :
    (∀ (bs : List String) (l : String) (rest : List String),
      (∀ b ∈ bs, startsWithBullet b = true) → startsWithBullet l = false →
      scanLines [] (bs ++ l :: rest)
        = flushList (bs.map stripBullet) ++ Block.para l :: scanLines [] rest) ∧
    (∀ bs : List String, (∀ b ∈ bs, startsWithBullet b = true) →
      scanLines [] bs = flushList (bs.map stripBullet)) ∧
    renderMessageContent "• one\n• two\nplain line"
      = [Block.bullets ["one", "two"], Block.para "plain line"] := by
  refine ⟨?_, ?_, by decide⟩
  · intro bs l rest hb hl
    rw [scanLines_bullet_accum bs [] (l :: rest) hb]
    simp only [List.nil_append, scanLines, hl]
    simp
  · intro bs hb
    have h := scanLines_bullet_accum bs [] [] hb
    simp only [List.append_nil, List.nil_append] at h
    rw [h]
    simp [scanLines]

/-- Witness for C8: one bullet line followed by a plain line. -/
theorem c8_formatter_blocks_witness :
    scanLines [] ["• a", "x"] = [Block.bullets ["a"], Block.para "x"] :=
  (c8_formatter_blocks.1 ["• a"] "x" [] (by decide) (by decide)).trans (by decide)

/-! ## C9: the composed mail link -/

/-- C9: a `to` parameter is present exactly when the harvested email list
is non-empty, and then carries the comma-joined list; when the list is
empty, the parameter list is exactly the four fixed entries and the link is
still a well-formed compose URL — base URL plus `&`-joined `name=value`
segments with the subject and body form-encoded. -/
theorem c9_mail_link :
    ∀ (parse : String → Option JsValue) (a : JsValue),
      ((∃ v, ("to", v) ∈ gmailParams parse a) ↔ founderEmails parse a ≠ []) ∧
      (founderEmails parse a ≠ [] →
        gmailParams parse a
          = [("view", "cm"), ("fs", "1"), ("su", mailSubject a), ("body", mailBody a),
             ("to", String.intercalate "," (founderEmails parse a))]) ∧
      (founderEmails parse a = [] →
        gmailParams parse a
          = [("view", "cm"), ("fs", "1"), ("su", mailSubject a), ("body", mailBody a)] ∧
        gmailLink parse a
          = "https://mail.google.com/mail/?"
              ++ joinAmp ["view=cm", "fs=1",
                  "su=" ++ encodeForm (mailSubject a),
                  "body=" ++ encodeForm (mailBody a)]) := by
  intro parse a
  by_cases he : founderEmails parse a = []
  · have hlen : ¬ (founderEmails parse a).length > 0 := by simp [he]
    refine ⟨?_, ?_, ?_⟩
    · constructor
      · rintro ⟨v, hv⟩
        simp [gmailParams, hlen] at hv
      · intro hne
        exact absurd he hne
    · intro hne
      exact absurd he hne
    · intro _
      constructor
      · simp [gmailParams, hlen]
      · have e1 : encodeForm "view" ++ "=" ++ encodeForm "cm" = "view=cm" := by decide
        have e2 : encodeForm "fs" ++ "=" ++ encodeForm "1" = "fs=1" := by decide
        have e3 : encodeForm "su" ++ "=" = "su=" := by decide
        have e4 : encodeForm "body" ++ "=" = "body=" := by decide
        simp only [gmailLink, serializeParams, gmailParams, hlen, if_false, List.map]
        rw [e1, e2, e3, e4]
  · have hlen : (founderEmails parse a).length > 0 := List.length_pos.mpr he
    refine ⟨?_, ?_, ?_⟩
    · constructor
      · intro _
        exact he
      · intro _
        exact ⟨String.intercalate "," (founderEmails parse a), by simp [gmailParams, hlen]⟩
    · intro _
      simp [gmailParams, hlen]
    · intro h0
      exact absurd h0 he

/-- Witness for C9 on a record with one harvested email: the `to` parameter
is appended after the four fixed parameters. -/
theorem c9_mail_link_witness :
    gmailParams parse0 c9ex
      = [("view", "cm"), ("fs", "1"), ("su", mailSubject c9ex), ("body", mailBody c9ex),
         ("to", String.intercalate "," (founderEmails parse0 c9ex))] :=
  (c9_mail_link parse0 c9ex).2.1 (by decide)

/-! ## C10: shape of harvested addresses -/

/-- The decomposition every regex match has: a non-empty local part, `@`, a
non-empty domain head, a dot, and a TLD of at least two letters, each piece
drawn from its character class. -/
def emailShape (m : List Char) : Prop :=
  ∃ loc d1 tld, m = loc ++ '@' :: (d1 ++ '.' :: tld) ∧
    loc ≠ [] ∧ (∀ c ∈ loc, isL c = true) ∧
    d1 ≠ [] ∧ (∀ c ∈ d1, isD c = true) ∧
    (∀ c ∈ tld, isT c = true) ∧ 2 ≤ tld.length

/-- Elements of a `takeWhile` satisfy the predicate. -/
theorem mem_takeWhile_pred (p : α → Bool) :
    ∀ (l : List α) (x : α), x ∈ l.takeWhile p → p x = true := by
  intro l
  induction l with
  | nil => intro x hx; simp [List.takeWhile] at hx
  | cons h t ih =>
    intro x hx
    cases hp : p h with
    | false => simp [List.takeWhile, hp] at hx
    | true =>
      simp only [List.takeWhile, hp] at hx
      rcases List.mem_cons.mp hx with rfl | hx
      · exact hp
      · exact ih x hx

/-- Local-part characters are not whitespace. -/
theorem not_ws_of_isL {c : Char} (h : isL c = true) : c.isWhitespace = false := by
  cases hw : c.isWhitespace with
  | false => rfl
  | true =>
    exfalso
    have hw2 : ((c = ' ' ∨ c = '\t') ∨ c = '\r') ∨ c = '\n' := by
      simpa [Char.isWhitespace] using hw
    rcases hw2 with ((rfl | rfl) | rfl) | rfl <;> exact absurd h (by decide)

/-- Domain characters are not whitespace. -/
theorem not_ws_of_isD {c : Char} (h : isD c = true) : c.isWhitespace = false := by
  cases hw : c.isWhitespace with
  | false => rfl
  | true =>
    exfalso
    have hw2 : ((c = ' ' ∨ c = '\t') ∨ c = '\r') ∨ c = '\n' := by
      simpa [Char.isWhitespace] using hw
    rcases hw2 with ((rfl | rfl) | rfl) | rfl <;> exact absurd h (by decide)

/-- TLD characters are not whitespace. -/
theorem not_ws_of_isT {c : Char} (h : isT c = true) : c.isWhitespace = false := by
  cases hw : c.isWhitespace with
  | false => rfl
  | true =>
    exfalso
    have hw2 : ((c = ' ' ∨ c = '\t') ∨ c = '\r') ∨ c = '\n' := by
      simpa [Char.isWhitespace] using hw
    rcases hw2 with ((rfl | rfl) | rfl) | rfl <;> exact absurd h (by decide)

/-- The value of `getLast?` is a member of the list. -/
theorem getLast?_mem_self {l : List α} {a : α} (h : l.getLast? = some a) : a ∈ l := by
  obtain ⟨hne, heq⟩ := List.mem_getLast?_eq_getLast (Option.mem_def.mpr h)
  rw [heq]
  exact List.getLast_mem hne

/-- Every match produced by `matchAt` has the email shape. -/
theorem matchAt_shape {s m r : List Char} (h : matchAt s = some (m, r)) :
    emailShape m := by
  unfold matchAt at h
  split at h
  · exact absurd h (by simp)
  case isFalse hne =>
    split at h
    case h_1 r1 r2 heq =>
      split at h
      case h_1 i hbest =>
        have hval : validDot (List.takeWhile isD r2) i = true := by
          have hmem := getLast?_mem_self hbest
          exact (List.mem_filter.mp hmem).2
        simp only [validDot, Bool.and_eq_true, decide_eq_true_eq, beq_iff_eq] at hval
        obtain ⟨⟨hi1, hdot⟩, hlen2⟩ := hval
        have hlt : i < (List.takeWhile isD r2).length := by
          rcases List.get?_eq_some.mp hdot with ⟨hw, _⟩
          exact hw
        injection h with h
        injection h with hm hr
        refine ⟨List.takeWhile isL s, (List.takeWhile isD r2).take i,
          (((List.takeWhile isD r2).drop (i + 1)).takeWhile isT), hm.symm, ?_, ?_, ?_, ?_, ?_, hlen2⟩
        · simpa using hne
        · intro c hc
          exact mem_takeWhile_pred isL s c hc
        · intro hcon
          rcases List.take_eq_nil_iff.mp hcon with h0 | h0
          · omega
          · rw [h0] at hlt
            simp at hlt
        · intro c hc
          exact mem_takeWhile_pred isD r2 c (List.mem_of_mem_take hc)
        · intro c hc
          exact mem_takeWhile_pred isT _ c hc
      · exact absurd h (by simp)
    · exact absurd h (by simp)

/-- Every match found by the scanning pass has the email shape. -/
theorem findMatchesAux_shape :
    ∀ (fuel : Nat) (s : List Char) (m : List Char),
      m ∈ findMatchesAux fuel s → emailShape m := by
  intro fuel
  induction fuel with
  | zero => intro s m h; simp [findMatchesAux] at h
  | succ n ih =>
    intro s m h
    cases s with
    | nil => simp [findMatchesAux] at h
    | cons c cs =>
      simp only [findMatchesAux] at h
      cases hm : matchAt (c :: cs) with
      | some pr =>
        obtain ⟨m', r⟩ := pr
        rw [hm] at h
        simp only [] at h
        rcases List.mem_cons.mp h with rfl | h
        · exact matchAt_shape hm
        · exact ih r m h
      | none =>
        rw [hm] at h
        exact ih cs m h

/-- Function `dropWhile` is the identity when no element satisfies the predicate. -/
theorem dropWhile_eq_self_of_none (p : α → Bool) :
    ∀ l : List α, (∀ x ∈ l, p x = false) → l.dropWhile p = l := by
  intro l h
  cases l with
  | nil => rfl
  | cons a t => simp [List.dropWhile, h a (List.mem_cons_self _ _)]

/-- Trimming a whitespace-free character list is the identity. -/
theorem trimChars_eq_self {l : List Char} (h : ∀ c ∈ l, c.isWhitespace = false) :
    trimChars l = l := by
  unfold trimChars
  rw [dropWhile_eq_self_of_none _ l h,
    dropWhile_eq_self_of_none _ l.reverse (fun c hc => h c (List.mem_reverse.mp hc))]
  exact List.reverse_reverse l

/-- No character of a shaped match is whitespace. -/
theorem emailShape_no_ws {m : List Char} (h : emailShape m) :
    ∀ c ∈ m, c.isWhitespace = false := by
  obtain ⟨loc, d1, tld, rfl, _, hL, _, hD, hT, _⟩ := h
  intro c hc
  rcases List.mem_append.mp hc with hc | hc
  · exact not_ws_of_isL (hL c hc)
  · rcases List.mem_cons.mp hc with rfl | hc
    · decide
    · rcases List.mem_append.mp hc with hc | hc
      · exact not_ws_of_isD (hD c hc)
      · rcases List.mem_cons.mp hc with rfl | hc
        · decide
        · exact not_ws_of_isT (hT c hc)

/-- A shaped match contains exactly one `@`. -/
theorem emailShape_one_at {m : List Char} (h : emailShape m) : m.count '@' = 1 := by
  obtain ⟨loc, d1, tld, rfl, _, hL, _, hD, hT, _⟩ := h
  have hloc : loc.count '@' = 0 := by
    rw [List.count_eq_zero]
    intro hc
    exact absurd (hL '@' hc) (by decide)
  have hd1 : d1.count '@' = 0 := by
    rw [List.count_eq_zero]
    intro hc
    exact absurd (hD '@' hc) (by decide)
  have htld : tld.count '@' = 0 := by
    rw [List.count_eq_zero]
    intro hc
    exact absurd (hT '@' hc) (by decide)
  simp [List.count_append, List.count_cons, hloc, hd1, htld]

/-- Every string collected from a value tree is a shaped regex match. -/
theorem collectEmails_shape :
    ∀ (v : JsValue) (e : String), e ∈ collectEmails v →
      ∃ m, emailShape m ∧ e = String.mk m := by
  intro v
  induction v with
  | null => intro e he; simp [collectEmails] at he
  | bool b => intro e he; simp [collectEmails] at he
  | num n => intro e he; simp [collectEmails] at he
  | str s =>
    intro e he
    simp only [collectEmails] at he
    split at he
    · simp at he
    · unfold pushCandidates at he
      rw [List.mem_filter] at he
      obtain ⟨hmem, _⟩ := he
      rw [List.mem_map] at hmem
      obtain ⟨m0, hm0, rfl⟩ := hmem
      unfold findEmails at hm0
      rw [List.mem_map] at hm0
      obtain ⟨mc, hmc, rfl⟩ := hm0
      have hshape := findMatchesAux_shape _ _ mc hmc
      refine ⟨mc, hshape, ?_⟩
      unfold jsTrim
      congr 1
      exact trimChars_eq_self (emailShape_no_ws hshape)
  | arrNil => intro e he; simp [collectEmails] at he
  | arrCons h t ihh iht =>
    intro e he
    simp only [collectEmails, List.mem_append] at he
    rcases he with he | he
    · exact ihh e he
    · exact iht e he
  | objNil => intro e he; simp [collectEmails] at he
  | objCons k v t ihv iht =>
    intro e he
    simp only [collectEmails, List.mem_append] at he
    rcases he with he | he
    · exact ihv e he
    · exact iht e he

/-- Membership in a concatenation comes from one of the blocks. -/
theorem mem_concatList {e : α} :
    ∀ blocks : List (List α), e ∈ concatList blocks → ∃ b ∈ blocks, e ∈ b := by
  intro blocks
  induction blocks with
  | nil => intro h; simp [concatList] at h
  | cons b bs ih =>
    intro h
    simp only [concatList, List.mem_append] at h
    rcases h with h | h
    · exact ⟨b, List.mem_cons_self _ _, h⟩
    · obtain ⟨b', hb', he'⟩ := ih h
      exact ⟨b', List.mem_cons_of_mem _ hb', he'⟩

/-- C10: every harvested email is a non-empty string that fully matches the
email pattern — it contains exactly one `@`, no whitespace, and after the
`@` a domain containing a dot followed by a top-level domain of at least two
letters. -/
theorem c10_harvest_shape :
    ∀ (parse : String → Option JsValue) (a : JsValue) (e : String),
      e ∈ founderEmails parse a →
      e ≠ "" ∧ e.toList.count '@' = 1 ∧
      (∀ c ∈ e.toList, c.isWhitespace = false) ∧ emailShape e.toList := by
  intro parse a e he
  have hraw : e ∈ rawEmailStream parse a := (dedupeGo_sublist _ _).subset he
  obtain ⟨b, hb, heb⟩ := mem_concatList _ hraw
  simp only [emailBlocks, List.mem_map] at hb
  obtain ⟨v, _, rfl⟩ := hb
  obtain ⟨m, hshape, rfl⟩ := collectEmails_shape v e heb
  have htl : (String.mk m).toList = m := rfl
  refine ⟨?_, ?_, ?_, ?_⟩
  · obtain ⟨loc, d1, tld, hm, hloc, _⟩ := hshape
    intro hcon
    have hdata : m = [] := by
      have := congrArg String.data hcon
      simpa using this
    rw [hdata] at hm
    exact absurd hm.symm (by simp)
  · rw [htl]
    exact emailShape_one_at hshape
  · rw [htl]
    exact emailShape_no_ws hshape
  · rw [htl]
    exact hshape

/-- Witness for C10 on the concrete harvested address `a@x.com`. -/
theorem c10_harvest_shape_witness :
    "a@x.com" ≠ "" ∧ "a@x.com".toList.count '@' = 1 ∧
    (∀ c ∈ "a@x.com".toList, c.isWhitespace = false) ∧ emailShape "a@x.com".toList :=
  c10_harvest_shape parse0 c1ex "a@x.com" (by decide)

end Chatbot
